import Mathlib

/-!
Verification of the image-optimization backend (`backend/jobs/`).

The definitions below are a shallow embedding of the Python sources:
`services.py` (geometry transforms, naming, job orchestration, error mapping),
`presets.py` (catalog lookup) and `management/commands/worker.py` (job claim).
Machine floats used by the Python code are embedded as exact rationals `ℚ`
(`/` on Python ints, `math.ceil`, `round`); where that choice is visible it is
noted at the definition.  PIL is modelled through its documented contract:
`image.resize((a, b))` yields an `a×b` image and `image.crop((l, t, r, b))`
yields an `(r-l)×(b-t)` image.
-/

namespace ImageJobs

/-- Python's `round` (banker's rounding, half to even) on an exact rational,
as hit by `int(round(x))` in `services.py` (`round` on a float returns an
integral float there, so the outer `int` is the identity). -/
def pyRound (q : ℚ) : ℤ :=
  let f := ⌊q⌋
  let frac := q - f
  if frac < 1/2 then f
  else if 1/2 < frac then f + 1
  else if f % 2 = 0 then f else f + 1

/-- First half of `services.py _resize_cover`: the scale ratio
`max(target_width / w, target_height / h)`, clamped to 1 when `no_upscale`.
The boolean records whether the clamp fired (`note = NO_UPSCALE_NOTE`). -/
def coverRatio (w h tw th : ℕ) (noUpscale : Bool) : ℚ × Bool :=
  let ratio0 : ℚ := max ((tw : ℚ) / (w : ℚ)) ((th : ℚ) / (h : ℚ))
  if noUpscale ∧ 1 < ratio0 then (1, true) else (ratio0, false)

/-- The `image.resize` step of `_resize_cover`: identity when `ratio == 1.0`,
otherwise `(ceil(w*ratio), ceil(h*ratio))`. -/
def coverResized (w h : ℕ) (ratio : ℚ) : ℕ × ℕ :=
  if ratio = 1 then (w, h)
  else ((⌈(w : ℚ) * ratio⌉).toNat, (⌈(h : ℚ) * ratio⌉).toNat)

/-- The crop step of `_resize_cover`: center-crop to exactly the target size
when the scaled image reaches it on both axes, otherwise center-crop to the
target aspect ratio (keeping the full shorter axis).  Only the crop-box
dimensions are returned; `image.crop((l, t, l+cw, t+ch))` is `cw×ch`. -/
def coverCrop (rw rh tw th : ℕ) : ℕ × ℕ :=
  if tw ≤ rw ∧ th ≤ rh then (tw, th)
  else
    let targetAspect : ℚ := (tw : ℚ) / (th : ℚ)
    let inputAspect : ℚ := (rw : ℚ) / (rh : ℚ)
    let cw : ℕ :=
      if targetAspect < inputAspect then (pyRound ((rh : ℚ) * targetAspect)).toNat else rw
    let ch : ℕ :=
      if targetAspect < inputAspect then rh else (pyRound ((rw : ℚ) / targetAspect)).toNat
    (min cw rw, min ch rh)

/-- Model of `services.py _resize_cover`, assembled from the three steps above.
Returns the output dimensions and whether the no-upscale note was recorded. -/
def resizeCover (w h tw th : ℕ) (noUpscale : Bool) : (ℕ × ℕ) × Bool :=
  let rc := coverRatio w h tw th noUpscale
  let rs := coverResized w h rc.1
  (coverCrop rs.1 rs.2 tw th, rc.2)

/-- Model of `services.py _resize_contain`: scale by `min(tw/w, th/h)` (clamped to 1
when `no_upscale`); no cropping.  The scaled dimensions use `int(w * ratio)`
(truncation = floor for the nonnegative values here) with a lower bound of 1. -/
def resizeContain (w h tw th : ℕ) (noUpscale : Bool) : (ℕ × ℕ) × Bool :=
  let ratio0 : ℚ := min ((tw : ℚ) / (w : ℚ)) ((th : ℚ) / (h : ℚ))
  let clamped : Bool := noUpscale && decide (1 < ratio0)
  let ratio : ℚ := if clamped then 1 else ratio0
  if ratio = 1 then ((w, h), clamped)
  else ((max 1 (⌊(w : ℚ) * ratio⌋).toNat, max 1 (⌊(h : ℚ) * ratio⌋).toNat), clamped)

/-- Model of `services.py _apply_manual_crop`, for the case where all four normalized
coordinates are present (the `None` guard returns the image unchanged and is
outside the claims).  Returns the PIL crop box `(left, top, right, bottom)`;
the cropped image is `(right-left)×(bottom-top)`. -/
def applyManualCrop (w h : ℕ) (cx cy cw ch : ℚ) : ℤ × ℤ × ℤ × ℤ :=
  let left := pyRound (cx * (w : ℚ))
  let top := pyRound (cy * (h : ℚ))
  let right := pyRound ((cx + cw) * (w : ℚ))
  let bottom := pyRound ((cy + ch) * (h : ℚ))
  let left := max 0 (min left ((w : ℤ) - 1))
  let top := max 0 (min top ((h : ℤ) - 1))
  let right := max (left + 1) (min right (w : ℤ))
  let bottom := max (top + 1) (min bottom (h : ℤ))
  (left, top, right, bottom)

/-- Rounding `pyRound` on an integer value is that integer. -/
theorem pyRound_natCast (n : ℕ) : pyRound (n : ℚ) = n := by
  unfold pyRound
  simp

/-- The crop step on a square target yields a square; when the target is out
of reach it never exceeds the scaled input dimensions. -/
theorem coverCrop_square (rw rh t : ℕ) (hrh : 0 < rh) (ht : 0 < t) :
    ((coverCrop rw rh t t).1 = (coverCrop rw rh t t).2) ∧
    (¬(t ≤ rw ∧ t ≤ rh) → (coverCrop rw rh t t).1 ≤ rw ∧ (coverCrop rw rh t t).2 ≤ rh) := by
  have htq : ((t : ℚ)) ≠ 0 := Nat.cast_ne_zero.mpr ht.ne'
  have hta : (t : ℚ) / (t : ℚ) = 1 := div_self htq
  by_cases hfit : t ≤ rw ∧ t ≤ rh
  · simp only [coverCrop, if_pos hfit]
    exact ⟨trivial, fun hcon => absurd hfit hcon⟩
  · have hrhq : (0 : ℚ) < (rh : ℚ) := by exact_mod_cast hrh
    by_cases hasp : (1 : ℚ) < (rw : ℚ) / (rh : ℚ)
    · have hlt : rh < rw := by
        have := (one_lt_div hrhq).mp hasp
        exact_mod_cast this
      simp only [coverCrop, if_neg hfit, hta, if_pos hasp, mul_one, pyRound_natCast,
        Int.toNat_natCast]
      refine ⟨?_, fun _ => ⟨min_le_right _ _, min_le_left _ _⟩⟩
      simp [min_eq_left hlt.le, min_self]
    · have hle : rw ≤ rh := by
        have h1 : (rw : ℚ) / (rh : ℚ) ≤ 1 := not_lt.mp hasp
        have := (div_le_one hrhq).mp h1
        exact_mod_cast this
      simp only [coverCrop, if_neg hfit, hta, if_neg hasp, div_one, pyRound_natCast,
        Int.toNat_natCast]
      refine ⟨?_, fun _ => ⟨min_le_left _ _, min_le_right _ _⟩⟩
      simp [min_self, min_eq_left hle]

/-- The resize step keeps dimensions positive for a positive ratio. -/
theorem coverResized_pos (w h : ℕ) (ratio : ℚ) (hw : 0 < w) (hh : 0 < h)
    (hr : 0 < ratio) : 0 < (coverResized w h ratio).1 ∧ 0 < (coverResized w h ratio).2 := by
  unfold coverResized
  by_cases h1 : ratio = 1
  · simp [h1, hw, hh]
  · have hwq : (0 : ℚ) < (w : ℚ) := by exact_mod_cast hw
    have hhq : (0 : ℚ) < (h : ℚ) := by exact_mod_cast hh
    have hcw : 0 < ⌈(w : ℚ) * ratio⌉ := Int.ceil_pos.mpr (mul_pos hwq hr)
    have hch : 0 < ⌈(h : ℚ) * ratio⌉ := Int.ceil_pos.mpr (mul_pos hhq hr)
    simp only [if_neg h1]
    exact ⟨by omega, by omega⟩

/-- C2: for every image `w×h` and every square target `t×t`, `_resize_cover`
with `no_upscale=True` returns a square output, and when the original is
smaller than the target on both axes the returned dimensions do not exceed
the original dimensions. -/
theorem cover_square_no_upscale (w h t : ℕ) (hw : 0 < w) (hh : 0 < h) (ht : 0 < t) :
    ((resizeCover w h t t true).1.1 = (resizeCover w h t t true).1.2) ∧
    (w < t → h < t →
      (resizeCover w h t t true).1.1 ≤ w ∧ (resizeCover w h t t true).1.2 ≤ h) := by
  have hwq : (0 : ℚ) < (w : ℚ) := by exact_mod_cast hw
  have hhq : (0 : ℚ) < (h : ℚ) := by exact_mod_cast hh
  have htq : (0 : ℚ) < (t : ℚ) := by exact_mod_cast ht
  set ratio0 : ℚ := max ((t : ℚ) / (w : ℚ)) ((t : ℚ) / (h : ℚ)) with hr0
  by_cases hcl : 1 < ratio0
  · -- no-upscale clamp fires: the image is left unscaled
    have hres : resizeCover w h t t true = (coverCrop w h t t, true) := by
      simp [resizeCover, coverRatio, ← hr0, hcl, coverResized]
    rw [hres]
    obtain ⟨hsq, hle⟩ := coverCrop_square w h t hh ht
    exact ⟨hsq, fun hwt hht => hle (by omega)⟩
  · -- ratio ≤ 1: the target is reachable on both axes without upscaling
    have hmax1 : ratio0 ≤ 1 := not_lt.mp hcl
    have htw : t ≤ w := by
      have h1 : (t : ℚ) / (w : ℚ) ≤ 1 := le_trans (le_max_left _ _) hmax1
      have := (div_le_one hwq).mp h1
      exact_mod_cast this
    have hth : t ≤ h := by
      have h1 : (t : ℚ) / (h : ℚ) ≤ 1 := le_trans (le_max_right _ _) hmax1
      have := (div_le_one hhq).mp h1
      exact_mod_cast this
    have hfit : resizeCover w h t t true = ((t, t), false) := by
      by_cases h1 : ratio0 = 1
      · simp [resizeCover, coverRatio, ← hr0, hcl, h1, coverResized, coverCrop, htw, hth]
      · have hrw : (t : ℤ) ≤ ⌈(w : ℚ) * ratio0⌉ := by
          have hge : (t : ℚ) ≤ (w : ℚ) * ratio0 := by
            calc (t : ℚ) = (t : ℚ) / (w : ℚ) * (w : ℚ) := (div_mul_cancel₀ _ hwq.ne').symm
              _ ≤ ratio0 * (w : ℚ) :=
                  mul_le_mul_of_nonneg_right (le_max_left _ _) hwq.le
              _ = (w : ℚ) * ratio0 := mul_comm _ _
          calc (t : ℤ) = ⌈(t : ℚ)⌉ := (Int.ceil_natCast t).symm
            _ ≤ ⌈(w : ℚ) * ratio0⌉ := Int.ceil_mono hge
        have hrh : (t : ℤ) ≤ ⌈(h : ℚ) * ratio0⌉ := by
          have hge : (t : ℚ) ≤ (h : ℚ) * ratio0 := by
            calc (t : ℚ) = (t : ℚ) / (h : ℚ) * (h : ℚ) := (div_mul_cancel₀ _ hhq.ne').symm
              _ ≤ ratio0 * (h : ℚ) :=
                  mul_le_mul_of_nonneg_right (le_max_right _ _) hhq.le
              _ = (h : ℚ) * ratio0 := mul_comm _ _
          calc (t : ℤ) = ⌈(t : ℚ)⌉ := (Int.ceil_natCast t).symm
            _ ≤ ⌈(h : ℚ) * ratio0⌉ := Int.ceil_mono hge
        have hrw' : t ≤ (⌈(w : ℚ) * ratio0⌉).toNat := by omega
        have hrh' : t ≤ (⌈(h : ℚ) * ratio0⌉).toNat := by omega
        simp [resizeCover, coverRatio, ← hr0, hcl, coverResized, if_neg h1, coverCrop,
          hrw', hrh']
    rw [hfit]
    exact ⟨rfl, fun hwt _ => absurd htw (by omega)⟩

/-- C2 witness: the square invariant and the no-upscale bound at the concrete
input `500×300`, square target `800×800`. -/
theorem cover_square_no_upscale_witness :
    ((resizeCover 500 300 800 800 true).1.1 = (resizeCover 500 300 800 800 true).1.2) ∧
    (500 < 800 → 300 < 800 →
      (resizeCover 500 300 800 800 true).1.1 ≤ 500 ∧
      (resizeCover 500 300 800 800 true).1.2 ≤ 300) :=
  cover_square_no_upscale 500 300 800 (by norm_num) (by norm_num) (by norm_num)

/-- C1 counterexample: with no-upscale enabled and a 1080×1080 cover target,
a 2000×1000 input does NOT come out as 1080×1080 (the height 1080 is not
reachable from 1000 without upscaling), and an 800×400 input does not come
out as 800×800.  The code center-crops to the target aspect instead. -/
theorem cover_scenario_counterexample :
    (resizeCover 2000 1000 1080 1080 true).1 ≠ (1080, 1080) ∧
    (resizeCover 800 400 1080 1080 true).1 ≠ (800, 800) := by
  constructor
  · norm_num [resizeCover, coverRatio, coverResized, coverCrop, pyRound, max_def, min_def]
  · norm_num [resizeCover, coverRatio, coverResized, coverCrop, pyRound, max_def, min_def]

/-- C1 amended: with no-upscale enabled and a 1080×1080 cover target, a
2000×1000 input yields exactly 1000×1000 and an 800×400 input yields exactly
400×400 (still square, never upscaled); the no-upscale note is recorded in
both cases.  With upscaling permitted the 2000×1000 input does yield exactly
1080×1080. -/
theorem cover_scenario_amended :
    (resizeCover 2000 1000 1080 1080 true).1 = (1000, 1000) ∧
    (resizeCover 800 400 1080 1080 true).1 = (400, 400) ∧
    (resizeCover 2000 1000 1080 1080 true).2 = true ∧
    (resizeCover 800 400 1080 1080 true).2 = true ∧
    (resizeCover 2000 1000 1080 1080 false).1 = (1080, 1080) := by
  refine ⟨?_, ?_, ?_, ?_, ?_⟩ <;>
    first
      | (norm_num [resizeCover, coverRatio, coverResized, coverCrop, pyRound,
          max_def, min_def]; try rfl)

/-- C8: `_apply_manual_crop` converts normalized fractions to a pixel
rectangle, clamps every edge into the valid image bounds, and guarantees at
least a 1×1 pixel crop for every input (degenerate fractions included); the
fractions (0.25, 0.25, 0.5, 0.5) on a 400×200 image give exactly the pixel
rectangle (100, 50)-(300, 150). -/
theorem manual_crop_bounds_and_scenario :
    (∀ (w h : ℕ) (cx cy cw ch : ℚ), 0 < w → 0 < h →
      0 ≤ (applyManualCrop w h cx cy cw ch).1 ∧
      0 ≤ (applyManualCrop w h cx cy cw ch).2.1 ∧
      (applyManualCrop w h cx cy cw ch).1 < (applyManualCrop w h cx cy cw ch).2.2.1 ∧
      (applyManualCrop w h cx cy cw ch).2.1 < (applyManualCrop w h cx cy cw ch).2.2.2 ∧
      (applyManualCrop w h cx cy cw ch).2.2.1 ≤ (w : ℤ) ∧
      (applyManualCrop w h cx cy cw ch).2.2.2 ≤ (h : ℤ) ∧
      1 ≤ (applyManualCrop w h cx cy cw ch).2.2.1 - (applyManualCrop w h cx cy cw ch).1 ∧
      1 ≤ (applyManualCrop w h cx cy cw ch).2.2.2 - (applyManualCrop w h cx cy cw ch).2.1) ∧
    applyManualCrop 400 200 (1/4) (1/4) (1/2) (1/2) = (100, 50, 300, 150) := by
  constructor
  · intro w h cx cy cw ch hw hh
    simp only [applyManualCrop]
    have hw' : (1 : ℤ) ≤ (w : ℤ) := by exact_mod_cast hw
    have hh' : (1 : ℤ) ≤ (h : ℤ) := by exact_mod_cast hh
    omega
  · norm_num [applyManualCrop, pyRound, max_def, min_def]

/-- C8 witness: the general bounds instantiated at the 400×200 scenario. -/
theorem manual_crop_bounds_witness :
    0 ≤ (applyManualCrop 400 200 (1/4) (1/4) (1/2) (1/2)).1 ∧
    0 ≤ (applyManualCrop 400 200 (1/4) (1/4) (1/2) (1/2)).2.1 ∧
    (applyManualCrop 400 200 (1/4) (1/4) (1/2) (1/2)).1 <
      (applyManualCrop 400 200 (1/4) (1/4) (1/2) (1/2)).2.2.1 ∧
    (applyManualCrop 400 200 (1/4) (1/4) (1/2) (1/2)).2.1 <
      (applyManualCrop 400 200 (1/4) (1/4) (1/2) (1/2)).2.2.2 ∧
    (applyManualCrop 400 200 (1/4) (1/4) (1/2) (1/2)).2.2.1 ≤ (400 : ℤ) ∧
    (applyManualCrop 400 200 (1/4) (1/4) (1/2) (1/2)).2.2.2 ≤ (200 : ℤ) ∧
    1 ≤ (applyManualCrop 400 200 (1/4) (1/4) (1/2) (1/2)).2.2.1 -
      (applyManualCrop 400 200 (1/4) (1/4) (1/2) (1/2)).1 ∧
    1 ≤ (applyManualCrop 400 200 (1/4) (1/4) (1/2) (1/2)).2.2.2 -
      (applyManualCrop 400 200 (1/4) (1/4) (1/2) (1/2)).2.1 :=
  manual_crop_bounds_and_scenario.1 400 200 (1/4) (1/4) (1/2) (1/2)
    (by norm_num) (by norm_num)

/-! ### Preset catalog and effective-preset resolution (`presets.py`, `services.py`) -/

/-- One catalog entry (`PresetBase` JSON entry or serialized `PresetCustom`);
only the fields relevant to the resolution claims are carried. -/
structure Preset where
  id : String
  label : String
  category : String
  width : Option ℕ
  height : Option ℕ
deriving DecidableEq, Repr

/-- The preset sources seen by `presets.py`: the `PresetCustom` table and the
base JSON list (`load_presets()['presets']`, in file order). -/
structure Catalog where
  custom : List Preset
  base : List Preset
deriving DecidableEq, Repr

/-- Model of `presets.py get_preset`: a custom preset with the requested id shadows the
base catalog; otherwise the base list is scanned in order. -/
def getPreset (cat : Catalog) (pid : String) : Option Preset :=
  match cat.custom.find? (fun p => p.id == pid) with
  | some c => some c
  | none => cat.base.find? (fun p => p.id == pid)

/-- Model of `services.py _resolve_effective_preset`.  Unset ids are modelled as `""`
(Python falsiness of a blank/NULL CharField).  Note the asymmetry in the
source: the job's preset id is skipped when its lookup fails, while a set
`selected_preset_id` or `recommended_preset_id` is returned even when its
lookup fails. -/
def resolveEffectivePreset (cat : Catalog) (selected jobPreset recommended : String) :
    Option Preset :=
  if selected ≠ "" then getPreset cat selected
  else
    match (if jobPreset ≠ "" then getPreset cat jobPreset else none) with
    | some p => some p
    | none =>
      if recommended ≠ "" then getPreset cat recommended
      else cat.base.head?

/-- The resolution chain as the spec words it ("preset = file.selected_preset_id,
else job.preset_id, else file.recommended_preset_id, else first catalog
entry"): each fallback keys only on whether the id is set.  Stated for
comparison with `resolveEffectivePreset`. -/
def resolveEffectivePresetSpec (cat : Catalog) (selected jobPreset recommended : String) :
    Option Preset :=
  if selected ≠ "" then getPreset cat selected
  else if jobPreset ≠ "" then getPreset cat jobPreset
  else if recommended ≠ "" then getPreset cat recommended
  else cat.base.head?

/-- A one-entry base catalog used for concrete counterexamples. -/
def sampleCatalog : Catalog :=
  { custom := []
    base := [{ id := "hero-desktop", label := "Hero desktop", category := "web",
               width := some 1920, height := some 1080 }] }

/-- C5 counterexample: when the job's preset id is set but absent from the
catalog and the file has a recommended preset, the code resolves the
recommended preset, while the spec's chain stops at the job's preset id.  The
code's result is the catalog entry; the spec chain's result is `none`. -/
theorem resolve_effective_preset_counterexample :
    resolveEffectivePreset sampleCatalog "" "missing-id" "hero-desktop" ≠
      resolveEffectivePresetSpec sampleCatalog "" "missing-id" "hero-desktop" ∧
    resolveEffectivePresetSpec sampleCatalog "" "missing-id" "hero-desktop" = none ∧
    resolveEffectivePreset sampleCatalog "" "missing-id" "hero-desktop" =
      some { id := "hero-desktop", label := "Hero desktop", category := "web",
             width := some 1920, height := some 1080 } := by
  refine ⟨?_, ?_, ?_⟩ <;> decide

/-- C5 amended: the effective preset is the lookup of the file's
`selected_preset_id` when set (even when the lookup fails); otherwise the
job's preset when it is set AND its lookup succeeds; otherwise the lookup of
the file's `recommended_preset_id` when set (even when it fails); otherwise
the first base-catalog entry. -/
theorem resolve_effective_preset_amended (cat : Catalog)
    (selected jobPreset recommended : String) :
    (selected ≠ "" →
      resolveEffectivePreset cat selected jobPreset recommended = getPreset cat selected) ∧
    (selected = "" → ∀ p, getPreset cat jobPreset = some p →
      resolveEffectivePreset cat selected jobPreset recommended =
        (if jobPreset ≠ "" then some p
         else if recommended ≠ "" then getPreset cat recommended else cat.base.head?)) ∧
    (selected = "" → (jobPreset = "" ∨ getPreset cat jobPreset = none) → recommended ≠ "" →
      resolveEffectivePreset cat selected jobPreset recommended = getPreset cat recommended) ∧
    (selected = "" → (jobPreset = "" ∨ getPreset cat jobPreset = none) → recommended = "" →
      resolveEffectivePreset cat selected jobPreset recommended = cat.base.head?) := by
  refine ⟨fun hsel => ?_, fun hsel p hp => ?_, fun hsel hjob hrec => ?_, fun hsel hjob hrec => ?_⟩
  · simp [resolveEffectivePreset, hsel]
  · by_cases hj : jobPreset ≠ ""
    · simp [resolveEffectivePreset, hsel, hj, hp]
    · simp only [ne_eq, not_not] at hj
      by_cases hr : recommended ≠ "" <;>
        simp [resolveEffectivePreset, hsel, hj, hr]
  · rcases hjob with hj | hj
    · simp [resolveEffectivePreset, hsel, hj, hrec]
    · by_cases hj' : jobPreset ≠ "" <;>
        simp [resolveEffectivePreset, hsel, hj, hj', hrec]
  · rcases hjob with hj | hj
    · simp [resolveEffectivePreset, hsel, hj, hrec]
    · by_cases hj' : jobPreset ≠ "" <;>
        simp [resolveEffectivePreset, hsel, hj, hj', hrec]

/-- C5 witness: the amended chain evaluated on the sample catalog with only a
recommended id set. -/
theorem resolve_effective_preset_amended_witness :
    resolveEffectivePreset sampleCatalog "" "missing-id" "hero-desktop" =
      getPreset sampleCatalog "hero-desktop" :=
  (resolve_effective_preset_amended sampleCatalog "" "missing-id" "hero-desktop").2.2.1
    rfl (Or.inr (by decide)) (by decide)

/-! ### Naming engine: uniqueness enforcement (`services.py _ensure_unique_name`) -/

/-- The character for a decimal digit. -/
def digitChar (d : ℕ) : Char := Char.ofNat (48 + d)

/-- Decimal digit characters of `n`, most significant first; `fuel` only
bounds the recursion depth (exact whenever `n ≤ fuel`), keeping the
definition structurally recursive and hence kernel-evaluable. -/
def decCharsCore : ℕ → ℕ → List Char
  | _, 0 => []
  | 0, _ + 1 => []
  | fuel + 1, n + 1 => decCharsCore fuel ((n + 1) / 10) ++ [digitChar ((n + 1) % 10)]

/-- Decimal rendering of a natural number, as produced by the f-string
interpolation `f"{base}-{counter}{suffix}"` for the counter. -/
def decChars (n : ℕ) : List Char := if n = 0 then ['0'] else decCharsCore n n

/-- Index of the last `'.'` in a name, if any. -/
def lastDotIndex (l : List Char) : Option ℕ :=
  match l.reverse.findIdx? (fun c => c == '.') with
  | none => none
  | some k => some (l.length - 1 - k)

/-- Split per `pathlib`: `Path(name).stem` / `Path(name).suffix` split: the final
suffix starts at the last dot when that dot is neither the first nor the last
character; otherwise the suffix is empty.  Output names contain no path
separator here, so the whole name is the final component. -/
def splitStemSuffix (l : List Char) : List Char × List Char :=
  match lastDotIndex l with
  | none => (l, [])
  | some i => if 0 < i ∧ i < l.length - 1 then (l.take i, l.drop i) else (l, [])

/-- The candidate `f"{base}-{counter}{suffix}"` tried by
`_ensure_unique_name`. -/
def candidateName (stem suffix : List Char) (k : ℕ) : String :=
  String.mk (stem ++ '-' :: (decChars k ++ suffix))

/-- The `while True` search of `_ensure_unique_name`, made structural on a
fuel argument; `used.length + 1` attempts always suffice (the candidates are
pairwise distinct), so the fuel-exhausted branch is unreachable from
`ensureUniqueName`. -/
def findFreeName (stem suffix : List Char) (used : List String) : ℕ → ℕ → String
  | 0, k => candidateName stem suffix k
  | fuel + 1, k =>
    if candidateName stem suffix k ∈ used then findFreeName stem suffix used fuel (k + 1)
    else candidateName stem suffix k

/-- Model of `services.py _ensure_unique_name`: return `name` unless taken, else append
`-2`, `-3`, … before the suffix until a free name is found.  The used-name
set is modelled as a list tested by membership. -/
def ensureUniqueName (name : String) (used : List String) : String :=
  if name ∈ used then
    let p := splitStemSuffix name.data
    findFreeName p.1 p.2 used (used.length + 1) 2
  else name

/-- The helper `decCharsCore` computes the reversed decimal digits once the fuel covers
the value. -/
theorem decCharsCore_eq_digits (n : ℕ) : ∀ fuel, n ≤ fuel →
    decCharsCore fuel n = ((Nat.digits 10 n).reverse).map digitChar := by
  induction n using Nat.strong_induction_on with
  | _ n ih =>
    intro fuel hnf
    match n, fuel with
    | 0, fuel => simp [decCharsCore]
    | m + 1, fuel + 1 =>
      have hdiv : (m + 1) / 10 < m + 1 := Nat.div_lt_self (Nat.succ_pos m) (by norm_num)
      rw [decCharsCore, ih ((m + 1) / 10) hdiv (fuel) (by omega)]
      rw [Nat.digits_def' (by norm_num : 1 < 10) (Nat.succ_pos m)]
      simp

/-- Digit characters are injective on decimal digits. -/
theorem digitChar_injOn : ∀ a, a < 10 → ∀ b, b < 10 → digitChar a = digitChar b → a = b := by
  decide

/-- Lists of decimal digits are determined by their character rendering. -/
theorem map_digitChar_inj : ∀ l₁ l₂ : List ℕ, (∀ d ∈ l₁, d < 10) → (∀ d ∈ l₂, d < 10) →
    l₁.map digitChar = l₂.map digitChar → l₁ = l₂ := by
  intro l₁
  induction l₁ with
  | nil => intro l₂ _ _ h; cases l₂ <;> simp_all
  | cons a l ih =>
    intro l₂ h₁ h₂ h
    cases l₂ with
    | nil => simp_all
    | cons b l₂' =>
      simp only [List.map_cons, List.cons.injEq] at h
      have ha : a < 10 := h₁ a (by simp)
      have hb : b < 10 := h₂ b (by simp)
      have : a = b := digitChar_injOn a ha b hb h.1
      subst this
      have := ih l₂' (fun d hd => h₁ d (by simp [hd])) (fun d hd => h₂ d (by simp [hd])) h.2
      simp [this]

/-- The decimal rendering is injective. -/
theorem decChars_injective : Function.Injective decChars := by
  have hdig : ∀ n : ℕ, ∀ d ∈ (Nat.digits 10 n).reverse, d < 10 := by
    intro n d hd
    exact Nat.digits_lt_base (by norm_num) (List.mem_reverse.mp hd)
  have hzero : ∀ n : ℕ, n ≠ 0 → ((Nat.digits 10 n).reverse).map digitChar ≠ ['0'] := by
    intro n hn h
    have h0 : (['0'] : List Char) = ([0] : List ℕ).map digitChar := by decide
    rw [h0] at h
    have := map_digitChar_inj _ [0] (hdig n) (by simp) h
    have hrev : Nat.digits 10 n = [0] := by
      have := congrArg List.reverse this
      simpa using this
    have := Nat.ofDigits_digits 10 n
    rw [hrev] at this
    simp [Nat.ofDigits] at this
    exact hn this.symm
  intro m n h
  unfold decChars at h
  split_ifs at h with hm hn hn
  · omega
  · exfalso
    rw [decCharsCore_eq_digits n n le_rfl] at h
    exact hzero n hn h.symm
  · exfalso
    rw [decCharsCore_eq_digits m m le_rfl] at h
    exact hzero m hm h
  · rw [decCharsCore_eq_digits m m le_rfl, decCharsCore_eq_digits n n le_rfl] at h
    have := map_digitChar_inj _ _ (hdig m) (hdig n) h
    have hd : Nat.digits 10 m = Nat.digits 10 n := by
      have := congrArg List.reverse this
      simpa using this
    calc m = Nat.ofDigits 10 (Nat.digits 10 m) := (Nat.ofDigits_digits 10 m).symm
      _ = Nat.ofDigits 10 (Nat.digits 10 n) := by rw [hd]
      _ = n := Nat.ofDigits_digits 10 n

/-- Candidates for distinct counters are distinct names. -/
theorem candidateName_injective (stem suffix : List Char) :
    Function.Injective (candidateName stem suffix) := by
  intro j k h
  unfold candidateName at h
  injection h with h
  have h1 := List.append_cancel_left h
  have h2 : decChars j ++ suffix = decChars k ++ suffix := by
    injection h1
  exact decChars_injective (List.append_cancel_right h2)

/-- The fuel-bounded search never returns a used name while the fuel together
with the already-exhausted candidates covers `used.length + 1` attempts. -/
theorem findFreeName_not_mem (stem suffix : List Char) (used : List String) :
    ∀ fuel k, 2 ≤ k →
    (∀ j, 2 ≤ j → j < k → candidateName stem suffix j ∈ used) →
    used.length + 1 ≤ fuel + (k - 2) →
    findFreeName stem suffix used fuel k ∉ used := by
  intro fuel
  induction fuel with
  | zero =>
    intro k hk2 hall hcap
    exfalso
    have hinj : Set.InjOn (candidateName stem suffix) ↑(Finset.Ico 2 k) :=
      fun a _ b _ hab => candidateName_injective stem suffix hab
    have hcard : ((Finset.Ico 2 k).image (candidateName stem suffix)).card = k - 2 := by
      rw [Finset.card_image_of_injOn hinj, Nat.card_Ico]
    have hsub : (Finset.Ico 2 k).image (candidateName stem suffix) ⊆ used.toFinset := by
      intro s hs
      obtain ⟨j, hj, rfl⟩ := Finset.mem_image.mp hs
      obtain ⟨hj2, hjk⟩ := Finset.mem_Ico.mp hj
      exact List.mem_toFinset.mpr (hall j hj2 hjk)
    have h1 := Finset.card_le_card hsub
    have h2 := used.toFinset_card_le
    omega
  | succ fuel ih =>
    intro k hk2 hall hcap
    by_cases hmem : candidateName stem suffix k ∈ used
    · rw [show findFreeName stem suffix used (fuel + 1) k =
          findFreeName stem suffix used fuel (k + 1) by simp [findFreeName, hmem]]
      refine ih (k + 1) (by omega) (fun j hj2 hjk => ?_) (by omega)
      rcases Nat.lt_or_ge j k with hlt | hge
      · exact hall j hj2 hlt
      · have : j = k := by omega
        exact this ▸ hmem
    · rw [show findFreeName stem suffix used (fuel + 1) k =
          candidateName stem suffix k by simp [findFreeName, hmem]]
      exact hmem

/-- The search result is the candidate of the least free counter `≥ k`. -/
theorem findFreeName_least (stem suffix : List Char) (used : List String) :
    ∀ fuel k, findFreeName stem suffix used fuel k ∉ used →
    ∃ j, k ≤ j ∧ findFreeName stem suffix used fuel k = candidateName stem suffix j ∧
      candidateName stem suffix j ∉ used ∧
      (∀ i, k ≤ i → i < j → candidateName stem suffix i ∈ used) := by
  intro fuel
  induction fuel with
  | zero =>
    intro k hfree
    exact ⟨k, le_rfl, rfl, hfree, fun i h1 h2 => absurd (lt_of_le_of_lt h1 h2) (lt_irrefl _)⟩
  | succ fuel ih =>
    intro k hfree
    by_cases hmem : candidateName stem suffix k ∈ used
    · have heq : findFreeName stem suffix used (fuel + 1) k =
          findFreeName stem suffix used fuel (k + 1) := by simp [findFreeName, hmem]
      rw [heq] at hfree ⊢
      obtain ⟨j, hj1, hj2, hj3, hj4⟩ := ih (k + 1) hfree
      refine ⟨j, by omega, hj2, hj3, fun i h1 h2 => ?_⟩
      rcases Nat.lt_or_ge i (k + 1) with hlt | hge
      · have : i = k := by omega
        exact this ▸ hmem
      · exact hj4 i hge h2
    · have heq : findFreeName stem suffix used (fuel + 1) k =
          candidateName stem suffix k := by simp [findFreeName, hmem]
      rw [heq]
      exact ⟨k, le_rfl, rfl, by rw [heq] at hfree; exact hfree,
        fun i h1 h2 => absurd (lt_of_le_of_lt h1 h2) (lt_irrefl _)⟩

/-- C6: `_ensure_unique_name` never returns a name already in the used set,
and its result depends only on the membership of the used set (determinism:
two used sets with the same members give the same result). -/
theorem ensure_unique_name_spec (name : String) (used used' : List String) :
    ensureUniqueName name used ∉ used ∧
    ((∀ s, s ∈ used ↔ s ∈ used') →
      ensureUniqueName name used = ensureUniqueName name used') := by
  have hfree : ∀ (u : List String), name ∈ u →
      findFreeName (splitStemSuffix name.data).1 (splitStemSuffix name.data).2 u
        (u.length + 1) 2 ∉ u := by
    intro u _
    exact findFreeName_not_mem _ _ u (u.length + 1) 2 le_rfl
      (fun j h1 h2 => absurd (lt_of_le_of_lt h1 h2) (lt_irrefl _)) (by omega)
  constructor
  · unfold ensureUniqueName
    by_cases hmem : name ∈ used
    · simpa [hmem] using hfree used hmem
    · simp [hmem]
  · intro hiff
    unfold ensureUniqueName
    by_cases hmem : name ∈ used
    · have hmem' : name ∈ used' := (hiff name).mp hmem
      simp only [if_pos hmem, if_pos hmem']
      obtain ⟨j, hj1, hj2, hj3, hj4⟩ :=
        findFreeName_least _ _ used (used.length + 1) 2 (hfree used hmem)
      obtain ⟨j', hj1', hj2', hj3', hj4'⟩ :=
        findFreeName_least _ _ used' (used'.length + 1) 2 (hfree used' hmem')
      rw [hj2, hj2']
      congr 1
      rcases Nat.lt_trichotomy j j' with hlt | heq | hgt
      · exact absurd ((hiff _).mpr (hj4' j hj1 hlt)) hj3
      · exact heq
      · exact absurd ((hiff _).mp (hj4 j' hj1' hgt)) hj3'
    · have hmem' : name ∉ used' := fun h => hmem ((hiff name).mpr h)
      simp [hmem, hmem']

/-- C6 witness: with `a.png` and `a-2.png` taken, the result `a-3.png` is
fresh, and a reordered, duplicated used list yields the same result. -/
theorem ensure_unique_name_witness :
    ensureUniqueName "a.png" ["a.png", "a-2.png"] ∉ (["a.png", "a-2.png"] : List String) ∧
    ensureUniqueName "a.png" ["a.png", "a-2.png"] =
      ensureUniqueName "a.png" ["a-2.png", "a.png", "a.png"] :=
  ⟨(ensure_unique_name_spec "a.png" ["a.png", "a-2.png"] ["a-2.png", "a.png", "a.png"]).1,
    (ensure_unique_name_spec "a.png" ["a.png", "a-2.png"] ["a-2.png", "a.png", "a.png"]).2
      (by intro s; constructor <;> (intro h; simp only [List.mem_cons, List.not_mem_nil] at h ⊢; tauto))⟩

/-! ### Naming engine: normalization (`services.py _normalize_name`)

The two Unicode-table-driven steps of `_normalize_name` are carried as
explicit per-character parameters rather than re-implemented: `aChar c` is
the NFD decomposition of the single character `c` with its category-`Mn`
combining marks removed (so accent removal,
`''.join(c for c in unicodedata.normalize('NFD', text) if unicodedata.category(c) != 'Mn')`,
is the concatenation of `aChar` over the text — NFD decomposes each
character in place, and the canonical reordering it may also perform only
permutes the combining marks that the `Mn` filter deletes), and `lChar c`
is `str.lower` of the single character `c` (Python's `str.lower` maps each
character independently, possibly to several characters).  Theorems about
these steps assume only the Unicode contracts of the two tables, stated as
hypotheses where needed: the output characters of either table are fixed
points of it, and lowercasing a decomposition-free character yields
decomposition-free characters (case mapping preserves normalization form D). -/

/-- Statuses of `Job.Status`. -/
inductive JStatus
  | pending | processing | paused | canceled | done | failed
deriving DecidableEq, Repr

/-- Statuses of `JobFile.Status`. -/
inductive FStatus
  | pending | processing | done | failed
deriving DecidableEq, Repr

/-- The exception classes distinguished by `_human_error_message`. -/
inductive PyExc
  | unidentifiedImageError
  | memoryError
  | permissionError
  | enospcOSError
  | valueError (msg : String)
  | otherError
deriving DecidableEq, Repr

/-- Class name `exc.__class__.__name__` for the modelled classes. -/
def excClassName : PyExc → String
  | .unidentifiedImageError => "UnidentifiedImageError"
  | .memoryError => "MemoryError"
  | .permissionError => "PermissionError"
  | .enospcOSError => "OSError"
  | .valueError _ => "ValueError"
  | .otherError => "Exception"

/-- Model of `services.py _human_error_message`: fixed Spanish message per exception
class; a `ValueError` with a nonempty message passes it through; the debug
flag appends the class name. -/
def humanErrorMessage (exc : PyExc) (debug : Bool) : String :=
  let message :=
    match exc with
    | .unidentifiedImageError => "No se pudo leer la imagen. Verifica que sea JPG/PNG/WEBP."
    | .memoryError => "Memoria insuficiente para procesar la imagen."
    | .permissionError => "Permisos insuficientes en carpeta de salida del servidor."
    | .enospcOSError => "Espacio insuficiente para generar resultados. Libera espacio."
    | .valueError msg =>
      if msg = "" then "Ocurrió un error al procesar la imagen." else msg
    | .otherError => "Ocurrió un error al procesar la imagen."
  if debug then message ++ " (detalle: " ++ excClassName exc ++ ")" else message

/-- The persisted `Job` row fields touched by `process_job`. -/
structure JobRow where
  status : JStatus
  progress : ℕ
  processedFiles : ℕ
  totalFiles : ℕ
  errorMessage : String
deriving DecidableEq, Repr

/-- One iteration's inputs for the `process_job` file loop: the job status
seen by `refresh_from_db` before the file (pause/cancel are requested by
external writes to it) and the outcome of the per-file pipeline
(`_process_job_file` + `_save_job_file_output`; `none` = success, `some e` =
exception `e`). -/
structure FileStep where
  preStatus : JStatus
  outcome : Option PyExc
deriving DecidableEq, Repr

/-- Fuel-bounded binary logarithm of a rational `q ≥ 1`: the `e ≥ 0` with
`2 ^ e ≤ q < 2 ^ (e + 1)` (fuel `1200` covers every finite binary64
exponent). -/
def log2Ge1 : ℕ → ℚ → ℕ
  | 0, _ => 0
  | fuel + 1, q => if q < 2 then 0 else log2Ge1 fuel (q / 2) + 1

/-- Fuel-bounded binary logarithm of a rational `0 < q < 1`: the `e > 0`
with `2 ^ (-e) ≤ q < 2 ^ (-e + 1)`. -/
def log2Lt1 : ℕ → ℚ → ℕ
  | 0, _ => 0
  | fuel + 1, q => if 1 ≤ q then 0 else log2Lt1 fuel (q * 2) + 1

/-- The binade exponent of a positive rational: the `e` with
`2 ^ e ≤ q < 2 ^ (e + 1)`. -/
def floatExp (q : ℚ) : ℤ :=
  if 1 ≤ q then (log2Ge1 1200 q : ℤ) else -(log2Lt1 1200 q : ℤ)

/-- IEEE-754 binary64 rounding (round to nearest, ties to even) of an exact
rational, in the normal range: the significand is the half-to-even rounding
of `q` scaled to 53 bits (`pyRound` is exactly that rounding on a scaled
integer boundary).  CPython's `int / int` and `float * int` both produce the
correctly rounded binary64 result, i.e. `roundDouble` of the exact value. -/
def roundDouble (q : ℚ) : ℚ :=
  if q = 0 then 0
  else (pyRound (q * 2 ^ ((52 : ℤ) - floatExp q)) : ℚ) * 2 ^ (floatExp q - (52 : ℤ))

/-- Progress `int((processed / total) * 100) if total else 0`, as evaluated
by CPython: the division `processed / total` is the correctly rounded
binary64 quotient, the product with `100` is again correctly rounded, and
`int` truncates (for the nonnegative values here, the floor).  Both
roundings are `roundDouble` on the exact rationals, which are well inside
the normal binary64 range for any realistic file count. -/
def progressOf (processed total : ℕ) : ℕ :=
  if total ≠ 0 then
    (⌊roundDouble (roundDouble ((processed : ℚ) / (total : ℚ)) * 100)⌋).toNat
  else 0

/-- A job with no processed files has progress `0`. -/
theorem progressOf_zero (t : ℕ) : progressOf 0 t = 0 := by
  simp [progressOf, roundDouble]

/-- The quotient `29 / 50` lies in the binade `[2 ^ (-1), 2 ^ 0)`. -/
theorem log2Lt1_c3 : log2Lt1 1200 (29/50 : ℚ) = 1 := by
  rw [show (1200 : ℕ) = 1199 + 1 from rfl, log2Lt1, if_neg (by norm_num),
    show (1199 : ℕ) = 1198 + 1 from rfl, log2Lt1, if_pos (by norm_num)]

/-- Binade exponent of `29 / 50`. -/
theorem floatExp_c3a : floatExp (29/50 : ℚ) = -1 := by
  rw [floatExp, if_neg (by norm_num), log2Lt1_c3]
  norm_num

/-- Significand rounding of `29 / 50` at 53 bits: `29 / 50 · 2 ^ 53 =
261208778387488768 / 50` rounds down (fractional part `9 / 25 < 1 / 2`). -/
theorem pyRound_c3a : pyRound (261208778387488768/50 : ℚ) = 5224175567749775 := by
  rw [pyRound]; norm_num

/-- The binary64 value of `29 / 50` (the CPython result of `29 / 50`). -/
theorem roundDouble_c3a :
    roundDouble (29/50 : ℚ) = 5224175567749775 / 9007199254740992 := by
  rw [roundDouble, if_neg (by norm_num), floatExp_c3a]
  rw [show (29/50 : ℚ) * 2 ^ ((52 : ℤ) - (-1)) = 261208778387488768/50 by norm_num]
  rw [pyRound_c3a]
  norm_num

/-- The product `float(29/50) * 100` lies in the binade `[2 ^ 5, 2 ^ 6)`. -/
theorem log2Ge1_c3 : log2Ge1 1200 (130604389193744375 / 2251799813685248 : ℚ) = 5 := by
  rw [show (1200 : ℕ) = 1199 + 1 from rfl, log2Ge1, if_neg (by norm_num),
    show (1199 : ℕ) = 1198 + 1 from rfl, log2Ge1, if_neg (by norm_num),
    show (1198 : ℕ) = 1197 + 1 from rfl, log2Ge1, if_neg (by norm_num),
    show (1197 : ℕ) = 1196 + 1 from rfl, log2Ge1, if_neg (by norm_num),
    show (1196 : ℕ) = 1195 + 1 from rfl, log2Ge1, if_neg (by norm_num),
    show (1195 : ℕ) = 1194 + 1 from rfl, log2Ge1, if_pos (by norm_num)]

/-- Binade exponent of the exact product. -/
theorem floatExp_c3b : floatExp (130604389193744375 / 2251799813685248 : ℚ) = 5 := by
  rw [floatExp, if_pos (by norm_num), log2Ge1_c3]
  norm_num

/-- Significand rounding of the product at 53 bits: `130604389193744375 / 16`
rounds down (fractional part `7 / 16 < 1 / 2`). -/
theorem pyRound_c3b : pyRound (130604389193744375/16 : ℚ) = 8162774324609023 := by
  rw [pyRound]; norm_num

/-- The binary64 value of `float(29/50) * 100`: just below `58`. -/
theorem roundDouble_c3b :
    roundDouble (130604389193744375 / 2251799813685248 : ℚ) =
      8162774324609023 / 140737488355328 := by
  rw [roundDouble, if_neg (by norm_num), floatExp_c3b]
  rw [show (130604389193744375 / 2251799813685248 : ℚ) * 2 ^ ((52 : ℤ) - 5) =
    130604389193744375/16 by norm_num]
  rw [pyRound_c3b]
  norm_num

/-- At `29` of `50` files the saved progress is `57`, one below the exact
floor `58`: `int((29 / 50) * 100) == 57` in CPython because
`(29 / 50) * 100 == 57.99999999999999...`. -/
theorem progressOf_29_50 : progressOf 29 50 = 57 := by
  rw [progressOf, if_pos (by norm_num)]
  rw [show ((29 : ℕ) : ℚ) / ((50 : ℕ) : ℚ) = 29/50 by norm_num]
  rw [roundDouble_c3a]
  rw [show (5224175567749775 / 9007199254740992 : ℚ) * 100 =
    130604389193744375 / 2251799813685248 by norm_num]
  rw [roundDouble_c3b]
  rw [show ⌊(8162774324609023 / 140737488355328 : ℚ)⌋ = 57 by norm_num]
  rfl

/-- The `for index, job_file in enumerate(...)` loop of `process_job`.
Returns the job row after the loop, the per-file final
`(status, error_message)` pairs in file order, the chronological job-row
saves made inside the loop, the `errors` flag, and whether the loop ran to
completion (`false` when a pause/cancel checkpoint returned early). -/
def runFiles (debug : Bool) : JobRow → List FileStep →
    JobRow × List (FStatus × String) × List JobRow × Bool × Bool
  | job, [] => (job, [], [], false, true)
  | job, step :: rest =>
    let job' := { job with status := step.preStatus }
    if step.preStatus = .paused then
      (job', [], [job'], false, false)
    else if step.preStatus = .canceled then
      (job', [], [job'], false, false)
    else
      let fileRes : FStatus × String :=
        match step.outcome with
        | none => (.done, "")
        | some e => (.failed, humanErrorMessage e debug)
      let job'' := { job' with
        processedFiles := job'.processedFiles + 1,
        progress := progressOf (job'.processedFiles + 1) job'.totalFiles }
      let r := runFiles debug job'' rest
      (r.1, fileRes :: r.2.1, job'' :: r.2.2.1, step.outcome.isSome || r.2.2.2.1, r.2.2.2.2)

/-- The three outcomes of `_build_zip` as seen by its callers. -/
inductive ZipResult
  | ok
  | returnedNone
  | raised (e : PyExc)
deriving DecidableEq, Repr

/-- Result of a `process_job` call: final job row, per-file results, and the
chronological job-row saves of this run. -/
structure RunResult where
  job : JobRow
  fileResults : List (FStatus × String)
  trace : List JobRow
deriving DecidableEq, Repr

/-- Model of `services.py process_job`: no-op when paused/canceled; fail fast when the
preset is missing (without touching the progress counters); otherwise reset
the counters, run the file loop with its pause/cancel checkpoints, then
build the archive and set the final status (`FAILED` when any file failed or
the archive build failed, else `DONE`). -/
def processJob (presetExists : Bool) (debug : Bool) (steps : List FileStep)
    (zip : ZipResult) (job0 : JobRow) : RunResult :=
  if job0.status = .paused ∨ job0.status = .canceled then
    { job := job0, fileResults := [], trace := [] }
  else if presetExists = false then
    let job1 := { job0 with
      status := JStatus.failed,
      errorMessage := "El preset del trabajo no existe." }
    { job := job1, fileResults := [], trace := [job1] }
  else
    let jobStart := { job0 with
      status := JStatus.processing, progress := 0,
      processedFiles := 0, errorMessage := "" }
    let r := runFiles debug jobStart steps
    if r.2.2.2.2 = false then
      { job := r.1, fileResults := r.2.1, trace := jobStart :: r.2.2.1 }
    else
      let zipFailed : Bool := match zip with | .ok => false | _ => true
      let msg : String := match zip with
        | .ok => r.1.errorMessage
        | .returnedNone => "No se pudo generar el ZIP de resultados."
        | .raised e => humanErrorMessage e debug
      let errors := r.2.2.2.1 || zipFailed
      let jobF := { r.1 with
        status := if errors then JStatus.failed else JStatus.done,
        errorMessage := msg }
      { job := jobF, fileResults := r.2.1, trace := (jobStart :: r.2.2.1) ++ [jobF] }

/-- Model of `services.py reprocess_job_file` for one file: raises `ValueError` when
the preset is missing; marks the file failed and re-raises when the per-file
pipeline raises; otherwise rebuilds the archive and finalizes the job row
(`processed_files = files.count()`, `progress = 100`, `DONE` unless the
archive build failed).  Returns the final file `(status, error_message)` and
either the raised exception or the final job row. -/
def reprocessJobFile (presetExists : Bool) (debug : Bool) (outcome : Option PyExc)
    (zip : ZipResult) (filesCount : ℕ) (job0 : JobRow) (file0 : FStatus × String) :
    (FStatus × String) × Except PyExc JobRow :=
  if presetExists = false then
    (file0, .error (.valueError "El preset del trabajo no existe."))
  else
    match outcome with
    | some e => ((.failed, humanErrorMessage e debug), .error e)
    | none =>
      let zipFailed : Bool := match zip with | .ok => false | _ => true
      let msg : String := match zip with
        | .ok => job0.errorMessage
        | .returnedNone => "No se pudo generar el ZIP de resultados."
        | .raised e => humanErrorMessage e debug
      ((.done, ""),
        .ok { job0 with
          status := if zipFailed then JStatus.failed else JStatus.done,
          errorMessage := msg,
          processedFiles := filesCount,
          progress := 100 })

/-- The megapixel guard at the top of `_process_job_file`, raised before any
output is produced: `ValueError` when `width * height` exceeds `maxMp`
million pixels (`MAX_IMAGE_MP`, default 100). -/
def oversizeMessage : String := "Imagen demasiado grande (MP). Reduce tamaño antes."

/-- The guard itself: the exception raised for an oversized image, if any. -/
def checkImageSize (w h maxMp : ℕ) : Option PyExc :=
  if maxMp * 1000000 < w * h then some (.valueError oversizeMessage) else none

/-- When no pause or cancel lands during the loop, every file is processed:
the per-file results follow each file's own outcome, the loop completes, the
`errors` flag is the disjunction of the per-file failures, and
`processed_files` advances by the number of files. -/
theorem runFiles_results (debug : Bool) :
    ∀ (steps : List FileStep), (∀ s ∈ steps, s.preStatus = .processing) →
    ∀ job : JobRow,
    (runFiles debug job steps).2.1 = steps.map (fun s =>
      match s.outcome with
      | none => (FStatus.done, "")
      | some e => (FStatus.failed, humanErrorMessage e debug)) ∧
    (runFiles debug job steps).2.2.2.2 = true ∧
    (runFiles debug job steps).2.2.2.1 = steps.any (fun s => s.outcome.isSome) := by
  intro steps
  induction steps with
  | nil => intro _ job; simp [runFiles]
  | cons step rest ih =>
    intro hall job
    have hps : step.preStatus = .processing := hall step (by simp)
    have hp : ¬step.preStatus = JStatus.paused := by simp [hps]
    have hc : ¬step.preStatus = JStatus.canceled := by simp [hps]
    obtain ⟨ih1, ih2, ih3⟩ := ih (fun s hs => hall s (by simp [hs]))
      { status := step.preStatus, progress := progressOf (job.processedFiles + 1) job.totalFiles,
        processedFiles := job.processedFiles + 1, totalFiles := job.totalFiles,
        errorMessage := job.errorMessage }
    simp only [runFiles, if_neg hp, if_neg hc]
    refine ⟨?_, ?_, ?_⟩
    · simp only [List.map_cons]
      rw [ih1]
    · exact ih2
    · simp only [List.any_cons]
      rw [ih3]

/-- Totals are preserved by the loop; the completion flag determines the
final `processed_files` and, when the loop returned early, the job status;
the progress invariant is preserved. -/
theorem runFiles_final (debug : Bool) :
    ∀ (steps : List FileStep) (job : JobRow),
    (runFiles debug job steps).1.totalFiles = job.totalFiles ∧
    ((runFiles debug job steps).2.2.2.2 = true →
      (runFiles debug job steps).1.processedFiles = job.processedFiles + steps.length) ∧
    ((runFiles debug job steps).2.2.2.2 = false →
      (runFiles debug job steps).1.status = .paused ∨
      (runFiles debug job steps).1.status = .canceled) ∧
    (job.progress = progressOf job.processedFiles job.totalFiles →
      (runFiles debug job steps).1.progress =
        progressOf (runFiles debug job steps).1.processedFiles
          (runFiles debug job steps).1.totalFiles) := by
  intro steps
  induction steps with
  | nil => intro job; simp [runFiles]
  | cons step rest ih =>
    intro job
    by_cases hp : step.preStatus = .paused
    · simp [runFiles, hp]
    · by_cases hc : step.preStatus = .canceled
      · simp [runFiles, hp, hc]
      · obtain ⟨ih1, ih2, ih3, ih4⟩ := ih
          { status := step.preStatus,
            progress := progressOf (job.processedFiles + 1) job.totalFiles,
            processedFiles := job.processedFiles + 1, totalFiles := job.totalFiles,
            errorMessage := job.errorMessage }
        simp only [runFiles, if_neg hp, if_neg hc]
        refine ⟨by simpa using ih1, fun h => ?_, fun h => ?_, fun _ => ?_⟩
        · have h2 := ih2 h
          dsimp only at h2
          simp only [List.length_cons]
          omega
        · exact ih3 h
        · exact ih4 rfl

/-- Monotonicity: `processed_files` is non-decreasing along the loop's saves, every save is
bounded by the loop's final value, totals are preserved, and every save
satisfies the progress invariant. -/
theorem runFiles_trace (debug : Bool) :
    ∀ (steps : List FileStep) (job : JobRow),
    List.Chain' (fun a b => a.processedFiles ≤ b.processedFiles)
      (job :: (runFiles debug job steps).2.2.1) ∧
    (∀ r ∈ job :: (runFiles debug job steps).2.2.1,
      r.processedFiles ≤ (runFiles debug job steps).1.processedFiles) ∧
    (∀ r ∈ (runFiles debug job steps).2.2.1,
      r.totalFiles = job.totalFiles ∧
      (job.progress = progressOf job.processedFiles job.totalFiles →
        r.progress = progressOf r.processedFiles r.totalFiles)) := by
  intro steps
  induction steps with
  | nil => intro job; simp [runFiles]
  | cons step rest ih =>
    intro job
    by_cases hp : step.preStatus = .paused
    · simp [runFiles, hp]
    · by_cases hc : step.preStatus = .canceled
      · simp [runFiles, hp, hc]
      · obtain ⟨ih1, ih2, ih3⟩ := ih
          { status := step.preStatus,
            progress := progressOf (job.processedFiles + 1) job.totalFiles,
            processedFiles := job.processedFiles + 1, totalFiles := job.totalFiles,
            errorMessage := job.errorMessage }
        simp only [runFiles, if_neg hp, if_neg hc]
        refine ⟨?_, ?_, ?_⟩
        · exact List.chain'_cons.mpr ⟨by dsimp only; omega, ih1⟩
        · intro r hr
          rcases List.mem_cons.mp hr with h1 | h2
          · subst h1
            have hb := ih2
              { status := step.preStatus,
                progress := progressOf (r.processedFiles + 1) r.totalFiles,
                processedFiles := r.processedFiles + 1, totalFiles := r.totalFiles,
                errorMessage := r.errorMessage } (List.mem_cons_self _ _)
            dsimp only at hb ⊢
            omega
          · exact ih2 r h2
        · intro r hr
          rcases List.mem_cons.mp hr with h1 | h2
          · subst h1
            exact ⟨rfl, fun _ => rfl⟩
          · obtain ⟨h3, h4⟩ := ih3 r h2
            exact ⟨h3.trans rfl, fun _ => h4 rfl⟩

/-- Chronological job-row saves of an uninterrupted all-success run, written
as an explicit list: starting from `p` processed files, the `k`-th save has
`p + k + 1` processed files and the matching float progress. -/
def savesFrom (tot : ℕ) (msg : String) : ℕ → ℕ → List JobRow
  | _, 0 => []
  | p, n + 1 =>
    { status := JStatus.processing, progress := progressOf (p + 1) tot,
      processedFiles := p + 1, totalFiles := tot, errorMessage := msg } ::
      savesFrom tot msg (p + 1) n

/-- The loop's saves on `n` uninterrupted successful files are exactly
`savesFrom`. -/
theorem runFiles_replicate_saves (debug : Bool) :
    ∀ (n : ℕ) (job : JobRow),
    (runFiles debug job (List.replicate n ⟨JStatus.processing, none⟩)).2.2.1 =
      savesFrom job.totalFiles job.errorMessage job.processedFiles n := by
  intro n
  induction n with
  | zero => intro job; rfl
  | succ n ih =>
    intro job
    have hp : ¬(⟨JStatus.processing, none⟩ : FileStep).preStatus = JStatus.paused := by decide
    have hc : ¬(⟨JStatus.processing, none⟩ : FileStep).preStatus = JStatus.canceled := by decide
    have ihj := ih
      { status := JStatus.processing,
        progress := progressOf (job.processedFiles + 1) job.totalFiles,
        processedFiles := job.processedFiles + 1, totalFiles := job.totalFiles,
        errorMessage := job.errorMessage }
    rw [List.replicate_succ]
    simp only [runFiles, if_neg hp, if_neg hc]
    rw [ihj]
    rfl

/-- Length of the explicit save list. -/
theorem savesFrom_length (tot : ℕ) (msg : String) :
    ∀ (n p : ℕ), (savesFrom tot msg p n).length = n := by
  intro n
  induction n with
  | zero => intro p; rfl
  | succ n ih => intro p; simp only [savesFrom, List.length_cons, ih]

/-- The `i`-th save of the explicit save list. -/
theorem savesFrom_getElem? (tot : ℕ) (msg : String) :
    ∀ (n p i : ℕ), i < n →
    (savesFrom tot msg p n)[i]? =
      some
        { status := JStatus.processing, progress := progressOf (p + i + 1) tot,
          processedFiles := p + i + 1, totalFiles := tot, errorMessage := msg } := by
  intro n
  induction n with
  | zero => intro p i hi; omega
  | succ n ih =>
    intro p i hi
    cases i with
    | zero => rw [savesFrom, List.getElem?_cons_zero]
    | succ i =>
      rw [savesFrom, List.getElem?_cons_succ, ih (p + 1) i (by omega)]
      rw [show p + 1 + i + 1 = p + (i + 1) + 1 from by omega]

/-- C3 counterexample, two independent violations.  First, a freshly
submitted one-file job whose preset id is unknown is marked `FAILED` by
`process_job` without touching `processed_files`, so at `FAILED` we have
`processed_files = 0 ≠ 1 = total_files`.  Second, the floor identity fails
on a reachable save: in an uninterrupted 50-file run the save after the
29th file carries `progress = 57` (the float computation
`int((29 / 50) * 100)`), while `floor(29 * 100 / 50) = 58`. -/
theorem process_job_progress_counterexample :
    (processJob false false [{ preStatus := .processing, outcome := none }] .ok
        { status := .pending, progress := 0, processedFiles := 0,
          totalFiles := 1, errorMessage := "" }).job.status = JStatus.failed ∧
    (processJob false false [{ preStatus := .processing, outcome := none }] .ok
        { status := .pending, progress := 0, processedFiles := 0,
          totalFiles := 1, errorMessage := "" }).job.processedFiles = 0 ∧
    (processJob false false [{ preStatus := .processing, outcome := none }] .ok
        { status := .pending, progress := 0, processedFiles := 0,
          totalFiles := 1, errorMessage := "" }).job.processedFiles ≠
      (processJob false false [{ preStatus := .processing, outcome := none }] .ok
        { status := .pending, progress := 0, processedFiles := 0,
          totalFiles := 1, errorMessage := "" }).job.totalFiles ∧
    ((processJob true false (List.replicate 50 ⟨JStatus.processing, none⟩) ZipResult.ok
        { status := JStatus.pending, progress := 0, processedFiles := 0,
          totalFiles := 50, errorMessage := "" }).trace[29]?).map
      (fun r => (r.processedFiles, r.totalFiles, r.progress)) = some (29, 50, 57) ∧
    29 * 100 / 50 = 58 := by
  refine ⟨by decide, by decide, by decide, ?_, by norm_num⟩
  have hall : ∀ s ∈ List.replicate 50 (⟨JStatus.processing, none⟩ : FileStep),
      s.preStatus = JStatus.processing := by
    intro s hs
    rw [List.eq_of_mem_replicate hs]
  have hflag := (runFiles_results false _ hall
    { status := JStatus.processing, progress := 0, processedFiles := 0,
      totalFiles := 50, errorMessage := "" }).2.1
  simp only [processJob]
  rw [if_neg (show ¬(JStatus.pending = JStatus.paused ∨ JStatus.pending = JStatus.canceled)
    from by decide)]
  rw [if_neg (show ¬(true = false) from by decide)]
  rw [hflag, if_neg (show ¬(true = false) from by decide)]
  simp only
  rw [runFiles_replicate_saves]
  simp only
  rw [show (29 : ℕ) = 28 + 1 from rfl]
  rw [List.cons_append, List.getElem?_cons_succ]
  rw [List.getElem?_append_left (by rw [savesFrom_length]; omega)]
  rw [savesFrom_getElem? _ _ 50 0 28 (by omega)]
  rw [Option.map_some']
  rw [progressOf_29_50]

/-- Appending a row that dominates every earlier row keeps the monotone
chain. -/
theorem chain_append_final {l : List JobRow} {y : JobRow}
    (h : List.Chain' (fun a b => a.processedFiles ≤ b.processedFiles) l)
    (hb : ∀ x ∈ l, x.processedFiles ≤ y.processedFiles) :
    List.Chain' (fun a b => a.processedFiles ≤ b.processedFiles) (l ++ [y]) := by
  refine List.chain'_append.mpr ⟨h, List.chain'_singleton y, fun x hx z hz => ?_⟩
  have hxl : x ∈ l := List.mem_of_mem_getLast? hx
  have hzy : y = z := by simpa using hz
  exact hzy ▸ hb x hxl

/-- C3 amended: when the job's preset exists and `total_files` is the number
of files (as set at submission), `processed_files` is non-decreasing along
the saves of a `process_job` run, it equals `total_files` whenever the run
ends `DONE` or `FAILED`, and every save satisfies
`progress = progressOf processed_files total_files`, the floor of the
binary64 evaluation of `(processed_files / total_files) * 100` — which on
reachable inputs can be one below the exact floor
`processed_files * 100 / total_files` (see the counterexample at 29 of 50
files).  (The early missing-preset failure, excluded here, marks the job
`FAILED` without touching `processed_files`.) -/
theorem process_job_progress_invariants (debug : Bool) (steps : List FileStep)
    (zip : ZipResult) (job0 : JobRow) (htot : job0.totalFiles = steps.length) :
    List.Chain' (fun a b => a.processedFiles ≤ b.processedFiles)
      (processJob true debug steps zip job0).trace ∧
    ((processJob true debug steps zip job0).job.status = JStatus.done ∨
        (processJob true debug steps zip job0).job.status = JStatus.failed →
      (processJob true debug steps zip job0).job.processedFiles =
        (processJob true debug steps zip job0).job.totalFiles) ∧
    (∀ row ∈ (processJob true debug steps zip job0).trace,
      row.progress = progressOf row.processedFiles row.totalFiles) := by
  by_cases h0 : job0.status = JStatus.paused ∨ job0.status = JStatus.canceled
  · simp only [processJob, if_pos h0]
    refine ⟨List.chain'_nil, fun hdf => ?_, by simp⟩
    rcases h0 with h | h <;> rcases hdf with h' | h' <;> simp_all
  · have hpre : ¬(true = false) := by simp
    simp only [processJob, if_neg h0, if_neg hpre]
    set J : JobRow :=
      { status := JStatus.processing, progress := 0, processedFiles := 0,
        totalFiles := job0.totalFiles, errorMessage := "" } with hJdef
    obtain ⟨tr1, tr2, tr3⟩ := runFiles_trace debug steps J
    obtain ⟨fin1, fin2, fin3, fin4⟩ := runFiles_final debug steps J
    have hInvJ : J.progress = progressOf J.processedFiles J.totalFiles := by
      rw [hJdef]
      exact (progressOf_zero _).symm
    have hrow3 : ∀ row ∈ J :: (runFiles debug J steps).2.2.1,
        row.progress = progressOf row.processedFiles row.totalFiles := by
      intro row hrow
      rcases List.mem_cons.mp hrow with h1 | h2
      · subst h1
        exact hInvJ
      · exact (tr3 row h2).2 hInvJ
    by_cases hflag : (runFiles debug J steps).2.2.2.2 = false
    · simp only [if_pos hflag]
      refine ⟨tr1, fun hdf => ?_, hrow3⟩
      rcases fin3 hflag with h | h <;> rcases hdf with h' | h' <;>
        (rw [h] at h'; exact absurd h' (by decide))
    · have hflag' : (runFiles debug J steps).2.2.2.2 = true := by simpa using hflag
      simp only [if_neg hflag]
      refine ⟨?_, fun _ => ?_, ?_⟩
      · exact chain_append_final tr1 (fun x hx => tr2 x hx)
      · have hp := fin2 hflag'
        dsimp only at hp ⊢
        rw [hp, fin1, hJdef]
        simpa using htot.symm
      · intro row hrow
        rcases List.mem_append.mp hrow with h1 | h2
        · exact hrow3 row h1
        · obtain rfl := List.mem_singleton.mp h2
          dsimp only
          exact fin4 hInvJ

/-- C3 witness: the three invariants on a concrete one-file run that
succeeds end-to-end. -/
theorem process_job_progress_invariants_witness :
    List.Chain' (fun a b => a.processedFiles ≤ b.processedFiles)
      (processJob true false [{ preStatus := .processing, outcome := none }] .ok
        { status := .pending, progress := 0, processedFiles := 0,
          totalFiles := 1, errorMessage := "" }).trace ∧
    ((processJob true false [{ preStatus := .processing, outcome := none }] .ok
        { status := .pending, progress := 0, processedFiles := 0,
          totalFiles := 1, errorMessage := "" }).job.status = JStatus.done ∨
      (processJob true false [{ preStatus := .processing, outcome := none }] .ok
        { status := .pending, progress := 0, processedFiles := 0,
          totalFiles := 1, errorMessage := "" }).job.status = JStatus.failed →
      (processJob true false [{ preStatus := .processing, outcome := none }] .ok
        { status := .pending, progress := 0, processedFiles := 0,
          totalFiles := 1, errorMessage := "" }).job.processedFiles =
      (processJob true false [{ preStatus := .processing, outcome := none }] .ok
        { status := .pending, progress := 0, processedFiles := 0,
          totalFiles := 1, errorMessage := "" }).job.totalFiles) ∧
    (∀ row ∈ (processJob true false [{ preStatus := .processing, outcome := none }] .ok
        { status := .pending, progress := 0, processedFiles := 0,
          totalFiles := 1, errorMessage := "" }).trace,
      row.progress = progressOf row.processedFiles row.totalFiles) :=
  process_job_progress_invariants false [{ preStatus := .processing, outcome := none }] .ok
    { status := .pending, progress := 0, processedFiles := 0,
      totalFiles := 1, errorMessage := "" } rfl

/-- An element read by index is a member. -/
theorem mem_of_getElem?_steps {l : List FileStep} {i : ℕ} {a : FileStep}
    (h : l[i]? = some a) : a ∈ l := by
  obtain ⟨hlt, hEq⟩ := List.getElem?_eq_some.mp h
  exact hEq ▸ List.getElem_mem hlt

/-- C4: in the full-job loop a per-file error marks only that file `FAILED`
with the mapped human-readable message, the loop continues through every
file, and the job itself is finished (status `FAILED` because a file
failed), not aborted; `reprocess_job_file` instead marks the file `FAILED`
and re-raises the same exception to its caller. -/
theorem file_error_isolated_and_reprocess_raises (debug : Bool) (steps : List FileStep)
    (zip : ZipResult) (job0 : JobRow) (i : ℕ) (stepI : FileStep) (e : PyExc)
    (h0 : ¬(job0.status = JStatus.paused ∨ job0.status = JStatus.canceled))
    (hall : ∀ s ∈ steps, s.preStatus = .processing)
    (hstep : steps[i]? = some stepI) (houtcome : stepI.outcome = some e) :
    (processJob true debug steps zip job0).fileResults.length = steps.length ∧
    (processJob true debug steps zip job0).fileResults[i]? =
      some (FStatus.failed, humanErrorMessage e debug) ∧
    (∀ (j : ℕ) (sj : FileStep), steps[j]? = some sj → sj.outcome = none →
      (processJob true debug steps zip job0).fileResults[j]? =
        some (FStatus.done, "")) ∧
    (processJob true debug steps zip job0).job.status = JStatus.failed ∧
    (∀ (filesCount : ℕ) (file0 : FStatus × String),
      reprocessJobFile true debug (some e) zip filesCount job0 file0 =
        ((FStatus.failed, humanErrorMessage e debug), Except.error e)) := by
  have hpre : ¬(true = false) := by simp
  simp only [processJob, if_neg h0, if_neg hpre]
  set J : JobRow :=
    { status := JStatus.processing, progress := 0, processedFiles := 0,
      totalFiles := job0.totalFiles, errorMessage := "" } with hJdef
  obtain ⟨hres, hflag, herr⟩ := runFiles_results debug steps hall J
  rw [if_neg (show ¬((runFiles debug J steps).2.2.2.2 = false) by simp [hflag])]
  have hany : (steps.any fun s => s.outcome.isSome) = true :=
    List.any_eq_true.mpr ⟨stepI, mem_of_getElem?_steps hstep, by simp [houtcome]⟩
  refine ⟨?_, ?_, ?_, ?_, ?_⟩
  · dsimp only
    rw [hres, List.length_map]
  · dsimp only
    rw [hres, List.getElem?_map _ steps i, hstep]
    simp [houtcome]
  · intro j sj hj hout
    dsimp only
    rw [hres, List.getElem?_map _ steps j, hj]
    simp [hout]
  · dsimp only
    rw [herr, hany]
    simp
  · intro filesCount file0
    rfl

/-- C4 witness: a two-file job whose first file raises `MemoryError`; the
second file still succeeds, the job finishes `FAILED`, and the single-file
reprocess of such a failure re-raises. -/
theorem file_error_isolated_witness :
    (processJob true false
        [{ preStatus := .processing, outcome := some .memoryError },
         { preStatus := .processing, outcome := none }] .ok
        { status := .pending, progress := 0, processedFiles := 0,
          totalFiles := 2, errorMessage := "" }).fileResults.length = 2 ∧
    (processJob true false
        [{ preStatus := .processing, outcome := some .memoryError },
         { preStatus := .processing, outcome := none }] .ok
        { status := .pending, progress := 0, processedFiles := 0,
          totalFiles := 2, errorMessage := "" }).fileResults[0]? =
      some (FStatus.failed, humanErrorMessage .memoryError false) ∧
    (∀ (j : ℕ) (sj : FileStep), ([{ preStatus := .processing, outcome := some PyExc.memoryError },
         { preStatus := .processing, outcome := none }] : List FileStep)[j]? = some sj →
      sj.outcome = none →
      (processJob true false
        [{ preStatus := .processing, outcome := some .memoryError },
         { preStatus := .processing, outcome := none }] .ok
        { status := .pending, progress := 0, processedFiles := 0,
          totalFiles := 2, errorMessage := "" }).fileResults[j]? =
        some (FStatus.done, "")) ∧
    (processJob true false
        [{ preStatus := .processing, outcome := some .memoryError },
         { preStatus := .processing, outcome := none }] .ok
        { status := .pending, progress := 0, processedFiles := 0,
          totalFiles := 2, errorMessage := "" }).job.status = JStatus.failed ∧
    (∀ (filesCount : ℕ) (file0 : FStatus × String),
      reprocessJobFile true false (some .memoryError) .ok filesCount
        { status := .pending, progress := 0, processedFiles := 0,
          totalFiles := 2, errorMessage := "" } file0 =
        ((FStatus.failed, humanErrorMessage .memoryError false), Except.error .memoryError)) := by
  have h := file_error_isolated_and_reprocess_raises false
    [{ preStatus := .processing, outcome := some .memoryError },
     { preStatus := .processing, outcome := none }] .ok
    { status := .pending, progress := 0, processedFiles := 0,
      totalFiles := 2, errorMessage := "" } 0
    { preStatus := .processing, outcome := some .memoryError } .memoryError
    (by decide) (by decide) rfl rfl
  exact ⟨h.1, h.2.1, h.2.2.1, h.2.2.2.1, h.2.2.2.2⟩

/-- C10: a file whose pixel count exceeds `MAX_IMAGE_MP` million pixels
(default 100) makes `_process_job_file` raise `ValueError` with the fixed
message `Imagen demasiado grande (MP). Reduce tamaño antes.` before
producing any output, so the full-job loop marks exactly that file `FAILED`
with exactly that message (debug details off). -/
theorem oversize_image_fails_file (w h maxMp : ℕ) (job0 : JobRow) (zip : ZipResult)
    (hbig : maxMp * 1000000 < w * h)
    (h0 : ¬(job0.status = JStatus.paused ∨ job0.status = JStatus.canceled)) :
    checkImageSize w h maxMp = some (PyExc.valueError oversizeMessage) ∧
    humanErrorMessage (PyExc.valueError oversizeMessage) false = oversizeMessage ∧
    (processJob true false
        [{ preStatus := .processing, outcome := checkImageSize w h maxMp }] zip
        job0).fileResults = [(FStatus.failed, oversizeMessage)] := by
  have hchk : checkImageSize w h maxMp = some (.valueError oversizeMessage) := by
    simp [checkImageSize, hbig]
  have hmsg : humanErrorMessage (.valueError oversizeMessage) false = oversizeMessage := by
    simp only [humanErrorMessage]
    rw [if_neg (by decide : ¬(oversizeMessage = "")), if_neg (by simp)]
  refine ⟨hchk, hmsg, ?_⟩
  have hpre : ¬(true = false) := by simp
  simp only [processJob, if_neg h0, if_neg hpre]
  set J : JobRow :=
    { status := JStatus.processing, progress := 0, processedFiles := 0,
      totalFiles := job0.totalFiles, errorMessage := "" } with hJdef
  obtain ⟨hres, hflag, -⟩ := runFiles_results false
    [{ preStatus := .processing, outcome := checkImageSize w h maxMp }]
    (by intro s hs; simp only [List.mem_singleton] at hs; rw [hs]) J
  rw [if_neg (show ¬((runFiles false J
      [{ preStatus := .processing, outcome := checkImageSize w h maxMp }]).2.2.2.2 = false)
    by simp [hflag])]
  dsimp only
  rw [hres]
  simp [hchk, hmsg]

/-- C10 witness: a 20000×6000 image (120 MP) against the default 100 MP
limit. -/
theorem oversize_image_fails_file_witness :
    checkImageSize 20000 6000 100 = some (PyExc.valueError oversizeMessage) ∧
    humanErrorMessage (PyExc.valueError oversizeMessage) false = oversizeMessage ∧
    (processJob true false
        [{ preStatus := .processing, outcome := checkImageSize 20000 6000 100 }] .ok
        { status := .pending, progress := 0, processedFiles := 0,
          totalFiles := 1, errorMessage := "" }).fileResults =
      [(FStatus.failed, oversizeMessage)] :=
  oversize_image_fails_file 20000 6000 100
    { status := .pending, progress := 0, processedFiles := 0,
      totalFiles := 1, errorMessage := "" } .ok (by norm_num) (by decide)

/-! ### Worker scheduler job claim (`management/commands/worker.py _next_jobs`) -/

/-- A `Job` row as seen by the scheduler's claim query. -/
structure DbJob where
  id : ℕ
  status : JStatus
  createdAt : ℕ
deriving DecidableEq, Repr

/-- Stable insertion into a list sorted by `created_at`. -/
def insertByCreated (j : DbJob) : List DbJob → List DbJob
  | [] => [j]
  | k :: rest =>
    if j.createdAt < k.createdAt then j :: k :: rest else k :: insertByCreated j rest

/-- Stable sort by `created_at` (the query's `ORDER BY created_at`). -/
def sortByCreated : List DbJob → List DbJob
  | [] => []
  | j :: rest => insertByCreated j (sortByCreated rest)

/-- Model of `worker.py _next_jobs`: inside one transaction, select the oldest (up to)
`limit` rows with status `PENDING` under `select_for_update`, then set the
status of the selected ids to `PROCESSING` (`filter(id__in=...).update(...)`).
Because the read-then-update is a single atomic transaction under row-level
locking, concurrent executions serialize; `nextJobs` is that atomic step on
the database state.  Returns the claimed ids and the updated database (the
`if not jobs: return []` early exit coincides with the empty update). -/
def claimUpdate (ids : List ℕ) (j : DbJob) : DbJob :=
  if j.id ∈ ids then { j with status := JStatus.processing } else j

/-- The claimed ids and the updated database. -/
def nextJobs (db : List DbJob) (limit : ℕ) : List ℕ × List DbJob :=
  let jobs := (sortByCreated (db.filter (fun j => j.status == JStatus.pending))).take limit
  let ids := jobs.map (fun j => j.id)
  (ids, db.map (claimUpdate ids))

/-- The update leaves every id unchanged. -/
theorem claimUpdate_id (ids : List ℕ) (j : DbJob) : (claimUpdate ids j).id = j.id := by
  unfold claimUpdate
  split_ifs <;> rfl

/-- A claimed id's row becomes `PROCESSING`. -/
theorem claimUpdate_status_of_mem (ids : List ℕ) (j : DbJob) (h : j.id ∈ ids) :
    (claimUpdate ids j).status = JStatus.processing := by
  simp [claimUpdate, h]

/-- An unclaimed row is untouched. -/
theorem claimUpdate_of_not_mem (ids : List ℕ) (j : DbJob) (h : j.id ∉ ids) :
    claimUpdate ids j = j := by
  simp [claimUpdate, h]

/-- Insertion preserves the members. -/
theorem mem_insertByCreated {a j : DbJob} :
    ∀ {l : List DbJob}, a ∈ insertByCreated j l ↔ a = j ∨ a ∈ l := by
  intro l
  induction l with
  | nil => simp [insertByCreated]
  | cons k rest ih =>
    by_cases h : j.createdAt < k.createdAt
    · simp [insertByCreated, h]
    · simp only [insertByCreated, if_neg h, List.mem_cons, ih]
      tauto

/-- Sorting preserves the members. -/
theorem mem_sortByCreated {a : DbJob} :
    ∀ {l : List DbJob}, a ∈ sortByCreated l ↔ a ∈ l := by
  intro l
  induction l with
  | nil => simp [sortByCreated]
  | cons j rest ih =>
    simp [sortByCreated, mem_insertByCreated, ih]

/-- Every id claimed by `_next_jobs` belongs to a `PENDING` row of the input
database. -/
theorem nextJobs_claimed_pending (db : List DbJob) (limit : ℕ) :
    ∀ i ∈ (nextJobs db limit).1, ∃ j ∈ db, j.id = i ∧ j.status = JStatus.pending := by
  intro i hi
  simp only [nextJobs, List.mem_map] at hi
  obtain ⟨j, hj, rfl⟩ := hi
  have hj' : j ∈ sortByCreated (db.filter (fun j => j.status == JStatus.pending)) :=
    List.take_subset _ _ hj
  have hj'' : j ∈ db.filter (fun j => j.status == JStatus.pending) :=
    mem_sortByCreated.mp hj'
  obtain ⟨hmem, hp⟩ := List.mem_filter.mp hj''
  exact ⟨j, hmem, rfl, by simpa using hp⟩

/-- After the update, every row whose id was claimed is `PROCESSING`. -/
theorem nextJobs_claimed_processing (db : List DbJob) (limit : ℕ) :
    ∀ i ∈ (nextJobs db limit).1, ∀ j ∈ (nextJobs db limit).2, j.id = i →
      j.status = JStatus.processing := by
  intro i hi j hj hid
  rw [show (nextJobs db limit).2 = db.map (claimUpdate (nextJobs db limit).1) from rfl] at hj
  obtain ⟨x, _, rfl⟩ := List.mem_map.mp hj
  by_cases hin : x.id ∈ (nextJobs db limit).1
  · exact claimUpdate_status_of_mem _ _ hin
  · rw [claimUpdate_of_not_mem _ _ hin] at hid
    exact absurd (hid ▸ hi) hin

/-- The update never turns a `PROCESSING` id back: if every row of some id is
`PROCESSING`, this still holds after any further claim. -/
theorem nextJobs_keeps_processing (db : List DbJob) (limit : ℕ) (i : ℕ)
    (h : ∀ x ∈ db, x.id = i → x.status = JStatus.processing) :
    ∀ j ∈ (nextJobs db limit).2, j.id = i → j.status = JStatus.processing := by
  intro j hj hid
  rw [show (nextJobs db limit).2 = db.map (claimUpdate (nextJobs db limit).1) from rfl] at hj
  obtain ⟨x, hx, rfl⟩ := List.mem_map.mp hj
  by_cases hin : x.id ∈ (nextJobs db limit).1
  · exact claimUpdate_status_of_mem _ _ hin
  · rw [claimUpdate_of_not_mem _ _ hin] at hid ⊢
    exact h x hx hid

/-- C9: two claims against the same database (serialized in either order by
the row-level locking transaction) never return overlapping job-id sets, and
every claimed job goes `PENDING → PROCESSING` exactly once: it is `PENDING`
in the database it was claimed from, `PROCESSING` immediately after, and the
other claim leaves it `PROCESSING`. -/
theorem claim_pending_no_overlap (db : List DbJob) (k₁ k₂ : ℕ) :
    (∀ i ∈ (nextJobs db k₁).1, i ∉ (nextJobs (nextJobs db k₁).2 k₂).1) ∧
    (∀ i ∈ (nextJobs db k₁).1,
      (∃ j ∈ db, j.id = i ∧ j.status = JStatus.pending) ∧
      (∀ j ∈ (nextJobs db k₁).2, j.id = i → j.status = JStatus.processing) ∧
      (∀ j ∈ (nextJobs (nextJobs db k₁).2 k₂).2, j.id = i →
        j.status = JStatus.processing)) ∧
    (∀ i ∈ (nextJobs (nextJobs db k₁).2 k₂).1,
      (∃ j ∈ (nextJobs db k₁).2, j.id = i ∧ j.status = JStatus.pending) ∧
      (∀ j ∈ (nextJobs (nextJobs db k₁).2 k₂).2, j.id = i →
        j.status = JStatus.processing)) := by
  have hproc1 := nextJobs_claimed_processing db k₁
  refine ⟨?_, ?_, ?_⟩
  · intro i hi hi2
    obtain ⟨j, hj, hjid, hjp⟩ := nextJobs_claimed_pending (nextJobs db k₁).2 k₂ i hi2
    have := hproc1 i hi j hj hjid
    rw [this] at hjp
    exact absurd hjp (by decide)
  · intro i hi
    refine ⟨nextJobs_claimed_pending db k₁ i hi, hproc1 i hi, ?_⟩
    exact nextJobs_keeps_processing (nextJobs db k₁).2 k₂ i (hproc1 i hi)
  · intro i hi
    exact ⟨nextJobs_claimed_pending (nextJobs db k₁).2 k₂ i hi,
      nextJobs_claimed_processing (nextJobs db k₁).2 k₂ i hi⟩

end ImageJobs
